import Mathlib

/-!
Verification of the Google Docs to Markdown converter
(google-workspace-mcp/tools/docs.go).

Go strings are modelled as lists of characters (`GoStr`).  All byte-level
slicing performed by the Go code happens at boundaries of ASCII characters
(space, tab, newline), so the character-list model is exact.  The
`headingOffset` parameter is a Go `int` that is non-negative at every call
site (top-level calls pass 0 and table cells pass the offset through), and
is modelled as `Nat`.  Bullet nesting levels are Go `int64` values and are
modelled as `Int`.
-/

namespace DocsMd

abbrev GoStr := List Char

/-- The cut set `" \t\n"` used by `strings.TrimLeft` / `strings.TrimRight`
in `formatTextRun`. -/
def cutSet : GoStr := [' ', '\t', '\n']

/-- Go `unicode.IsSpace`, the predicate used by `strings.TrimSpace` in Go:
the White_Space property of Unicode. -/
def isGoSpace (c : Char) : Bool :=
  c = ' ' || c = '\t' || c = '\n' || c = Char.ofNat 0x0B || c = Char.ofNat 0x0C ||
  c = Char.ofNat 0x0D || c = Char.ofNat 0x85 || c = Char.ofNat 0xA0 ||
  c = Char.ofNat 0x1680 || (Char.ofNat 0x2000 ≤ c && c ≤ Char.ofNat 0x200A) ||
  c = Char.ofNat 0x2028 || c = Char.ofNat 0x2029 || c = Char.ofNat 0x202F ||
  c = Char.ofNat 0x205F || c = Char.ofNat 0x3000

/-- Go `strings.TrimSpace`: drop Unicode whitespace from both ends. -/
def goTrimSpace (s : GoStr) : GoStr :=
  ((s.dropWhile isGoSpace).reverse.dropWhile isGoSpace).reverse

/-- Membership in the cut set, as a Bool. -/
def isCut (c : Char) : Bool := decide (c ∈ cutSet)

/-- Go `strings.TrimLeft(s, " \t\n")`. -/
def goTrimLeftWS (s : GoStr) : GoStr := s.dropWhile isCut

/-- Go `strings.TrimRight(s, " \t\n")`. -/
def goTrimRightWS (s : GoStr) : GoStr :=
  (s.reverse.dropWhile isCut).reverse

/-- The slice `text[:len(text)-len(strings.TrimLeft(text, " \t\n"))]` — the leading
run of space/tab/newline characters. -/
def leadingOf (s : GoStr) : GoStr := s.take (s.length - (goTrimLeftWS s).length)

/-- The slice `text[len(strings.TrimRight(text, " \t\n")):]` — the trailing run of
space/tab/newline characters. -/
def trailingOf (s : GoStr) : GoStr := s.drop (goTrimRightWS s).length

/-- Go `strings.HasSuffix`. -/
def goHasSuffix (s suf : GoStr) : Bool := List.isSuffixOf suf s

/-- Go `strings.TrimSuffix(s, "\n")`: remove one trailing newline if present. -/
def goTrimSuffixNewline (s : GoStr) : GoStr :=
  if s.getLast? = some '\n' then s.dropLast else s

/-- Go `strings.ReplaceAll(s, string(old), new)` for a single-character
pattern `old`. -/
def goReplaceChar (s : GoStr) (old : Char) (new : GoStr) : GoStr :=
  (s.map (fun c => if c = old then new else [c])).flatten

/-- One collapsed run of `n` newlines, as produced by the regex
`\n{3,}` → `"\n\n"`: runs of three or more become two. -/
def collapseRun (n : Nat) : GoStr :=
  if 3 ≤ n then ['\n', '\n'] else List.replicate n '\n'

/-- Worker for `normalizeNewlines`: `n` counts the newlines of the current
pending run. -/
def normAux : GoStr → Nat → GoStr
  | [], n => collapseRun n
  | c :: rest, n =>
    if c = '\n' then normAux rest (n + 1)
    else collapseRun n ++ c :: normAux rest 0

/-- The function `normalizeNewlines`: `multipleNewlinesRe.ReplaceAllString(s, "\n\n")`
where the pattern is `\n{3,}` — every maximal run of three or more
newlines is replaced by exactly two. -/
def normalizeNewlines (s : GoStr) : GoStr := normAux s 0

/-- Decides whether a string contains three consecutive newlines. -/
def hasTriple : GoStr → Bool
  | a :: b :: c :: rest =>
    (a == '\n' && b == '\n' && c == '\n') || hasTriple (b :: c :: rest)
  | _ => false

/-! ## Data model (google.golang.org/api/docs/v1 fields used by docs.go) -/

structure Link where
  url : GoStr
deriving DecidableEq

structure TextStyle where
  bold : Bool
  italic : Bool
  strikethrough : Bool
  link : Option Link
deriving DecidableEq

structure TextRun where
  content : GoStr
  textStyle : Option TextStyle
deriving DecidableEq

structure ParagraphElement where
  textRun : Option TextRun
deriving DecidableEq

structure ParagraphStyle where
  namedStyleType : GoStr
deriving DecidableEq

structure Bullet where
  listId : GoStr
  nestingLevel : Int
deriving DecidableEq

structure Paragraph where
  paragraphStyle : Option ParagraphStyle
  bullet : Option Bullet
  elements : List ParagraphElement
deriving DecidableEq

structure NestingLevelInfo where
  glyphType : GoStr
deriving DecidableEq

structure ListProperties where
  nestingLevels : List NestingLevelInfo
deriving DecidableEq

/-- Go `docs.List` (named `DocsList` to avoid clashing with `List`). -/
structure DocsList where
  listProperties : Option ListProperties
deriving DecidableEq

/-- The `lists` argument of type map from string to `docs.List`; `none` models a nil map.
Go map lookup is modelled by association-list lookup. -/
abbrev ListCatalog := Option (List (GoStr × DocsList))

/-! ## Inline run formatter -/

/-- Steps 1 and 2 of `formatTextRun`: replace vertical tabs (U+000B) with
two newlines, then normalize smart typography to ASCII. -/
def processText (s : GoStr) : GoStr :=
  let t := goReplaceChar s (Char.ofNat 0x0B) ['\n', '\n']
  let t := goReplaceChar t (Char.ofNat 0x2018) [Char.ofNat 39]
  let t := goReplaceChar t (Char.ofNat 0x2019) [Char.ofNat 39]
  let t := goReplaceChar t (Char.ofNat 0x201C) [Char.ofNat 34]
  let t := goReplaceChar t (Char.ofNat 0x201D) [Char.ofNat 34]
  goReplaceChar t (Char.ofNat 0x2014) ['-', '-']

/-- Go `style.Link != nil && style.Link.Url != ""`. -/
def hasNonEmptyLink (st : TextStyle) : Bool :=
  match st.link with
  | some l => l.url != ([] : GoStr)
  | none => false

/-- The URL of the style link (empty if absent). -/
def linkUrlOf (st : TextStyle) : GoStr :=
  match st.link with
  | some l => l.url
  | none => []

/-- The bold/italic wrapping step of `formatTextRun`: both bold and italic
wrap in `***`, bold only in `**`, italic only in `*`. -/
def emphasisWrap (st : TextStyle) (core : GoStr) : GoStr :=
  if st.bold && st.italic then ('*' :: '*' :: '*' :: core) ++ ['*', '*', '*']
  else if st.bold then ('*' :: '*' :: core) ++ ['*', '*']
  else if st.italic then ('*' :: core) ++ ['*']
  else core

/-- The strikethrough wrapping step of `formatTextRun`, applied to the
already-emphasis-wrapped core. -/
def strikeWrap (st : TextStyle) (core : GoStr) : GoStr :=
  if st.strikethrough then ('~' :: '~' :: core) ++ ['~', '~'] else core

/-- Function `formatTextRun` from docs.go: applies markdown formatting to a text
run.  The Go fall-through from the link branch (when the trimmed core is
empty) into the emphasis branch is expressed by conjoining both guards. -/
def formatTextRun (tr : Option TextRun) : GoStr :=
  match tr with
  | none => []
  | some tr =>
    if tr.content = [] then []
    else
      let text := processText tr.content
      if goTrimSpace text = [] then text
      else
        match tr.textStyle with
        | none => text
        | some st =>
          if hasNonEmptyLink st ∧ goTrimSpace text ≠ [] then
            ('[' :: goTrimSpace text) ++ (']' :: '(' :: linkUrlOf st) ++
              (')' :: trailingOf text)
          else if st.bold || st.italic || st.strikethrough then
            let trimmed := goTrimSpace text
            if trimmed = [] then text
            else leadingOf text ++ strikeWrap st (emphasisWrap st trimmed) ++ trailingOf text
          else text

/-! ## Paragraph renderer -/

/-- The `switch para.ParagraphStyle.NamedStyleType` mapping classifications
to heading levels. -/
def headingLevelFor (t : GoStr) : Nat :=
  if t = ['T', 'I', 'T', 'L', 'E'] then 1
  else if t = ['H', 'E', 'A', 'D', 'I', 'N', 'G', '_', '1'] then 1
  else if t = ['H', 'E', 'A', 'D', 'I', 'N', 'G', '_', '2'] then 2
  else if t = ['H', 'E', 'A', 'D', 'I', 'N', 'G', '_', '3'] then 3
  else if t = ['H', 'E', 'A', 'D', 'I', 'N', 'G', '_', '4'] then 4
  else if t = ['H', 'E', 'A', 'D', 'I', 'N', 'G', '_', '5'] then 5
  else if t = ['H', 'E', 'A', 'D', 'I', 'N', 'G', '_', '6'] then 6
  else 0

/-- Heading level of a paragraph (0 when there is no paragraph style or no
heading classification). -/
def headingLevelOfPara (para : Paragraph) : Nat :=
  match para.paragraphStyle with
  | some ps => headingLevelFor ps.namedStyleType
  | none => 0

/-- The bullet-handling block of `processParagraph`: computes the bullet
marker with its indentation.  `l[n]?` models the Go guard
`len(NestingLevels) > nestingLevel` followed by indexing. -/
def bulletPrefixOf (lists : ListCatalog) (b : Bullet) : GoStr :=
  let nestingLevel : Nat := if 0 < b.nestingLevel then b.nestingLevel.toNat else 0
  let indent := List.replicate (2 * nestingLevel) ' '
  let isOrdered :=
    match lists with
    | none => false
    | some catalog =>
      if b.listId ≠ [] then
        match catalog.lookup b.listId with
        | some dl =>
          match dl.listProperties with
          | some props =>
            match props.nestingLevels[nestingLevel]? with
            | some nl =>
              nl.glyphType == ['D', 'E', 'C', 'I', 'M', 'A', 'L'] ||
              nl.glyphType == ['A', 'L', 'P', 'H', 'A'] ||
              nl.glyphType == ['R', 'O', 'M', 'A', 'N']
            | none => false
          | none => false
        | none => false
      else false
  if isOrdered then indent ++ ['1', '.', ' '] else indent ++ ['-', ' ']

/-- The ordered-glyph condition as the claim states it: the list id is
present and resolves in the catalog to a nesting-level-`n` glyph type of
DECIMAL, ALPHA or ROMAN; any other glyph type, unknown list id, absent
list id or out-of-range nesting level yields false. -/
def resolvesToOrderedGlyph (lists : ListCatalog) (listId : GoStr) (n : Nat) : Bool :=
  match lists with
  | none => false
  | some catalog =>
    if listId ≠ [] then
      match catalog.lookup listId with
      | some dl =>
        match dl.listProperties with
        | some props =>
          match props.nestingLevels[n]? with
          | some nl =>
            nl.glyphType == ['D', 'E', 'C', 'I', 'M', 'A', 'L'] ||
              nl.glyphType == ['A', 'L', 'P', 'H', 'A'] ||
              nl.glyphType == ['R', 'O', 'M', 'A', 'N']
          | none => false
        | none => false
      | none => false
    else false

/-- The paragraph-content loop of `processParagraph`: concatenates the
formatted text of every element carrying a text run. -/
def paraContent (elems : List ParagraphElement) : GoStr :=
  elems.foldl
    (fun acc e =>
      match e.textRun with
      | none => acc
      | some tr => if tr.content = [] then acc else acc ++ formatTextRun (some tr))
    []

/-- Function `processParagraph` from docs.go: converts one paragraph to markdown and
appends it to the buffer `sb`. -/
def processParagraph (sb : GoStr) (para : Option Paragraph) (lists : ListCatalog)
    (headingOffset : Nat) : GoStr :=
  match para with
  | none => sb
  | some para =>
    let headingLevel := headingLevelOfPara para
    let hPre : GoStr :=
      if 0 < headingLevel then
        List.replicate (min (headingLevel + headingOffset) 6) '#' ++ [' ']
      else []
    let bPre : GoStr :=
      match para.bullet with
      | some b => bulletPrefixOf lists b
      | none => []
    let content := paraContent para.elements
    if goTrimSpace content = [] then
      if goHasSuffix sb ['\n', '\n'] then sb else sb ++ ['\n']
    else if hPre ≠ [] then
      let sb1 := if 0 < sb.length ∧ ¬ goHasSuffix sb ['\n', '\n'] then sb ++ ['\n'] else sb
      sb1 ++ hPre ++ goTrimSuffixNewline content ++ ['\n', '\n']
    else if bPre ≠ [] then
      let content1 := goTrimSuffixNewline content
      if goTrimSpace content1 = [] ∨ goTrimSpace content1 = ['-'] then sb
      else sb ++ bPre ++ content1 ++ ['\n']
    else
      sb ++ goTrimSuffixNewline content ++ ['\n', '\n']

/-! ## Structural elements, tables, and the tree walker

`docs.StructuralElement` carries optional `Paragraph`, `Table` and
`SectionBreak` fields which `extractMarkdownContent` tests one after the
other (they are not an exclusive union in the Go type).  The section break
carries no data used by the code, so it is modelled by a `Bool` recording
its presence. -/

mutual
inductive StructuralElement where
  | mk (paragraph : Option Paragraph) (table : Option Table)
       (sectionBreak : Bool) : StructuralElement
inductive Table where
  | mk (tableRows : List TableRow) : Table
inductive TableRow where
  | mk (tableCells : List TableCell) : TableRow
inductive TableCell where
  | mk (content : List StructuralElement) : TableCell
end

def TableCell.content : TableCell → List StructuralElement
  | .mk c => c

def Table.tableRows : Table → List TableRow
  | .mk r => r

/-- The header-separator cells written after the first row: `" --- |"`
once per cell. -/
def headerSepCells (cells : List TableCell) : GoStr :=
  (cells.map (fun _ => [' ', '-', '-', '-', ' ', '|'])).flatten

mutual
/-- Function `extractMarkdownContent` from docs.go: walks the structural elements,
appending their markdown to the buffer. -/
def extractMarkdownContent (sb : GoStr) (elements : List StructuralElement)
    (lists : ListCatalog) (headingOffset : Nat) : GoStr :=
  match elements with
  | [] => sb
  | StructuralElement.mk p t brk :: rest =>
    let sb1 := match p with
      | some para => processParagraph sb (some para) lists headingOffset
      | none => sb
    let sb2 := match t with
      | some tb => processTable sb1 (some tb) lists headingOffset
      | none => sb1
    let sb3 :=
      if brk then
        if 0 < sb2.length ∧ goTrimSpace sb2 ≠ [] then
          sb2 ++ ['\n', '-', '-', '-', '\n', '\n']
        else sb2
      else sb2
    extractMarkdownContent sb3 rest lists headingOffset
termination_by sizeOf elements

/-- Function `processTable` from docs.go: converts a table to a markdown pipe table
and appends it to the buffer; does nothing for a nil table or zero rows. -/
def processTable (sb : GoStr) (table : Option Table) (lists : ListCatalog)
    (headingOffset : Nat) : GoStr :=
  match table with
  | none => sb
  | some (Table.mk rows) =>
    if rows.length = 0 then sb
    else processTableRows (sb ++ ['\n']) rows 0 lists headingOffset ++ ['\n']
termination_by sizeOf table

/-- The row loop of `processTable`; `rowIdx` is the loop index, used to
emit the header separator after the first row. -/
def processTableRows (sb : GoStr) (rows : List TableRow) (rowIdx : Nat)
    (lists : ListCatalog) (headingOffset : Nat) : GoStr :=
  match rows with
  | [] => sb
  | TableRow.mk cells :: rest =>
    let sb1 := processTableCells (sb ++ ['|']) cells lists headingOffset ++ ['\n']
    let sb2 :=
      if rowIdx = 0 then sb1 ++ ['|'] ++ headerSepCells cells ++ ['\n'] else sb1
    processTableRows sb2 rest (rowIdx + 1) lists headingOffset
termination_by sizeOf rows

/-- The cell loop of `processTable`: renders each cell into a fresh buffer,
trims it, replaces newlines by spaces and writes `" " ++ cellText ++ " |"`. -/
def processTableCells (sb : GoStr) (cells : List TableCell) (lists : ListCatalog)
    (headingOffset : Nat) : GoStr :=
  match cells with
  | [] => sb
  | TableCell.mk content :: rest =>
    let cellText :=
      goReplaceChar (goTrimSpace (extractMarkdownContent [] content lists headingOffset))
        '\n' [' ']
    processTableCells (sb ++ [' '] ++ cellText ++ [' ', '|']) rest lists headingOffset
termination_by sizeOf cells
end

/-! ## Lemmas on the newline normalizer -/

theorem hasTriple_collapseRun (n : Nat) : hasTriple (collapseRun n) = false := by
  unfold collapseRun
  split
  · decide
  · rename_i h
    rcases n with _ | _ | _ | n
    · decide
    · decide
    · decide
    · omega

theorem hasTriple_cons (a : Char) (t : GoStr) (h : a ≠ '\n') :
    hasTriple (a :: t) = hasTriple t := by
  rcases t with _ | ⟨b, _ | ⟨c, r⟩⟩
  · simp [hasTriple]
  · simp [hasTriple]
  · simp [hasTriple, h]

theorem hasTriple_cons_nl (a : Char) (t : GoStr) (h : a ≠ '\n') :
    hasTriple ('\n' :: a :: t) = hasTriple (a :: t) := by
  rcases t with _ | ⟨c, r⟩
  · simp [hasTriple]
  · simp [hasTriple, h]

theorem hasTriple_collapseRun_append (n : Nat) (c : Char) (t : GoStr) (h : c ≠ '\n') :
    hasTriple (collapseRun n ++ c :: t) = hasTriple (c :: t) := by
  have hb : (c == '\n') = false := by simp [h]
  unfold collapseRun
  split
  · simp [hasTriple, hb, hasTriple_cons_nl c t h]
  · rename_i hn
    rcases n with _ | _ | _ | n
    · simp
    · simpa [List.replicate] using hasTriple_cons_nl c t h
    · simp [List.replicate, hasTriple, hb, hasTriple_cons_nl c t h]
    · omega

theorem hasTriple_tail (a : Char) (t : GoStr) (h : hasTriple (a :: t) = false) :
    hasTriple t = false := by
  rcases t with _ | ⟨b, _ | ⟨c, r⟩⟩
  · simp [hasTriple]
  · simp [hasTriple]
  · simp only [hasTriple, Bool.or_eq_false_iff] at h
    exact h.2

theorem normAux_no_triple (s : GoStr) : ∀ n, hasTriple (normAux s n) = false := by
  induction s with
  | nil => exact fun n => hasTriple_collapseRun n
  | cons c rest ih =>
    intro n
    unfold normAux
    by_cases hc : c = '\n'
    · simp only [hc, if_pos rfl]
      exact ih (n + 1)
    · rw [if_neg hc, hasTriple_collapseRun_append n c _ hc, hasTriple_cons c _ hc]
      exact ih 0

theorem collapseRun_small (n : Nat) (h : n ≤ 2) : collapseRun n = List.replicate n '\n' := by
  unfold collapseRun
  rw [if_neg (by omega)]

theorem normAux_of_no_triple (s : GoStr) :
    ∀ n, n ≤ 2 → hasTriple (List.replicate n '\n' ++ s) = false →
      normAux s n = List.replicate n '\n' ++ s := by
  induction s with
  | nil =>
    intro n hn _
    unfold normAux
    rw [collapseRun_small n hn, List.append_nil]
  | cons c rest ih =>
    intro n hn h
    unfold normAux
    by_cases hc : c = '\n'
    · subst hc
      rw [if_pos rfl]
      have hrw : List.replicate n '\n' ++ '\n' :: rest =
          List.replicate (n + 1) '\n' ++ rest := by
        rw [List.replicate_succ' n '\n', List.append_assoc, List.singleton_append]
      have hn1 : n ≤ 1 := by
        by_contra hgt
        have hn2 : n = 2 := by omega
        subst hn2
        simp [hasTriple] at h
      rw [hrw] at h ⊢
      exact ih (n + 1) (by omega) h
    · rw [if_neg hc]
      have h1 : hasTriple (c :: rest) = false := by
        have : ∀ m, hasTriple (List.replicate m '\n' ++ c :: rest) = false →
            hasTriple (c :: rest) = false := by
          intro m
          induction m with
          | zero => simp
          | succ k ihm =>
            intro hm
            rw [List.replicate_succ, List.cons_append] at hm
            exact ihm (hasTriple_tail _ _ hm)
        exact this n h
      have h2 : hasTriple rest = false := hasTriple_tail _ _ h1
      rw [ih 0 (by omega) (by simpa using h2), collapseRun_small n hn]
      simp

theorem normAux_replicate (m : Nat) : ∀ n, normAux (List.replicate m '\n') n = collapseRun (n + m) := by
  induction m with
  | zero => intro n; simp [normAux]
  | succ k ih =>
    intro n
    rw [List.replicate_succ]
    unfold normAux
    rw [if_pos rfl, ih (n + 1)]
    congr 1
    omega

/-! ## String decomposition lemmas -/

theorem take_takeWhile_length (p : Char → Bool) (s : GoStr) :
    s.take (s.takeWhile p).length = s.takeWhile p := by
  induction s with
  | nil => rfl
  | cons a t ih =>
    by_cases hp : p a
    · simp [List.takeWhile_cons, hp, ih]
    · simp [List.takeWhile_cons, hp]

theorem leadingOf_eq (s : GoStr) : leadingOf s = s.takeWhile isCut := by
  unfold leadingOf goTrimLeftWS
  have hlen : (s.takeWhile isCut).length + (s.dropWhile isCut).length = s.length := by
    conv_rhs => rw [← List.takeWhile_append_dropWhile (p := isCut) (l := s)]
    rw [List.length_append]
  have h1 : s.length - (s.dropWhile isCut).length = (s.takeWhile isCut).length := by omega
  rw [h1]
  exact take_takeWhile_length _ s

theorem trailingOf_eq (s : GoStr) : trailingOf s = (s.reverse.takeWhile isCut).reverse := by
  have hs : s = (s.reverse.dropWhile isCut).reverse ++ (s.reverse.takeWhile isCut).reverse := by
    rw [← List.reverse_append, List.takeWhile_append_dropWhile, List.reverse_reverse]
  unfold trailingOf goTrimRightWS
  nth_rewrite 2 [hs]
  exact List.drop_left _ _

theorem goTrimRightWS_append_trailingOf (s : GoStr) :
    goTrimRightWS s ++ trailingOf s = s := by
  rw [trailingOf_eq]
  unfold goTrimRightWS
  rw [← List.reverse_append, List.takeWhile_append_dropWhile, List.reverse_reverse]

theorem leadingOf_append_goTrimLeftWS (s : GoStr) :
    leadingOf s ++ goTrimLeftWS s = s := by
  rw [leadingOf_eq]
  unfold goTrimLeftWS
  rw [List.takeWhile_append_dropWhile]

theorem trim_decomp (s : GoStr) : ∃ l r, s = l ++ goTrimSpace s ++ r := by
  refine ⟨s.takeWhile isGoSpace,
    ((s.dropWhile isGoSpace).reverse.takeWhile isGoSpace).reverse, ?_⟩
  unfold goTrimSpace
  rw [List.append_assoc, ← List.reverse_append, List.takeWhile_append_dropWhile,
    List.reverse_reverse, List.takeWhile_append_dropWhile]

theorem goTrimSpace_append_newline (t : GoStr) :
    goTrimSpace (t ++ ['\n']) = goTrimSpace t := by
  have hnl : isGoSpace '\n' = true := by decide
  unfold goTrimSpace
  rw [List.dropWhile_append]
  by_cases hd : t.dropWhile isGoSpace = []
  · simp [hd, List.dropWhile_cons, hnl]
  · rw [if_neg (by simpa using hd)]
    rw [List.reverse_append]
    simp [List.dropWhile_cons, hnl]

theorem goTrimSpace_goTrimSuffixNewline (s : GoStr) :
    goTrimSpace (goTrimSuffixNewline s) = goTrimSpace s := by
  unfold goTrimSuffixNewline
  split
  · rename_i h
    have hne : s ≠ [] := by
      intro he
      rw [he] at h
      simp at h
    have hg := List.getLast?_eq_getLast s hne
    have hlast : s.getLast hne = '\n' := Option.some_inj.mp (hg.symm.trans h)
    conv_rhs => rw [← List.dropLast_append_getLast hne]
    rw [hlast, goTrimSpace_append_newline]
  · rfl

/-! ## Claim C2 -/

/-- C2: the newline normalizer collapses every maximal run of three or
more newlines to exactly two (witnessed on whole runs: a run of `k + 3`
newlines becomes two); consequently it is idempotent and its output never
contains three consecutive newlines. -/
theorem c2_normalizeNewlines_spec :
    (∀ s : GoStr, normalizeNewlines (normalizeNewlines s) = normalizeNewlines s) ∧
    (∀ s : GoStr, hasTriple (normalizeNewlines s) = false) ∧
    (∀ k : Nat, normalizeNewlines (List.replicate (k + 3) '\n') = ['\n', '\n']) := by
  refine ⟨?_, fun s => normAux_no_triple s 0, ?_⟩
  · intro s
    have h := normAux_no_triple s 0
    have h2 := normAux_of_no_triple (normAux s 0) 0 (by omega) (by simpa using h)
    unfold normalizeNewlines
    simpa using h2
  · intro k
    unfold normalizeNewlines
    rw [normAux_replicate (k + 3) 0]
    unfold collapseRun
    rw [if_pos (by omega)]

/-! ## Claims C3, C4, C9 (inline run formatter) -/

/-- C3: a text run whose style carries a non-empty link URL and whose
normalized text is not whitespace-only renders as the trimmed core in
brackets, the URL in parentheses, and then exactly the trailing
space/tab/newline suffix of the text; leading whitespace is dropped. -/
theorem c3_formatTextRun_link (tr : TextRun) (st : TextStyle) (l : Link)
    (h1 : tr.textStyle = some st) (h2 : st.link = some l) (h3 : l.url ≠ [])
    (h4 : goTrimSpace (processText tr.content) ≠ []) :
    formatTextRun (some tr) =
      ('[' :: goTrimSpace (processText tr.content)) ++
        (']' :: '(' :: l.url) ++ (')' :: trailingOf (processText tr.content)) := by
  have hc : tr.content ≠ [] := by
    intro he
    apply h4
    rw [he]
    rfl
  have hlink : hasNonEmptyLink st = true := by
    unfold hasNonEmptyLink
    rw [h2]
    simpa using h3
  have hurl : linkUrlOf st = l.url := by
    unfold linkUrlOf
    rw [h2]
  simp only [formatTextRun, h1]
  rw [if_neg hc, if_neg h4, if_pos ⟨hlink, h4⟩, hurl]

/-- Concrete link run `"  hi\n"` pointing at `"http://x"`. -/
def exLinkRun : TextRun :=
  ⟨"  hi\n".toList, some ⟨false, false, false, some ⟨"http://x".toList⟩⟩⟩

/-- Witness for C3: the run `"  hi\n"` with link `"http://x"` renders as
exactly `"[hi](http://x)\n"`. -/
theorem c3_witness : formatTextRun (some exLinkRun) = "[hi](http://x)\n".toList := by
  rw [c3_formatTextRun_link exLinkRun ⟨false, false, false, some ⟨"http://x".toList⟩⟩
    ⟨"http://x".toList⟩ rfl rfl (by decide) (by decide)]
  decide

/-- C4: a text run with no link, a non-empty trimmed core and at least one
of bold/italic/strikethrough set renders as leading whitespace, the
strikethrough wrapping of the emphasis wrapping of the trimmed core, and
trailing whitespace. -/
theorem c4_formatTextRun_emphasis (tr : TextRun) (st : TextStyle)
    (h1 : tr.textStyle = some st) (h2 : st.link = none)
    (h3 : goTrimSpace (processText tr.content) ≠ [])
    (h4 : st.bold = true ∨ st.italic = true ∨ st.strikethrough = true) :
    formatTextRun (some tr) =
      leadingOf (processText tr.content) ++
        strikeWrap st (emphasisWrap st (goTrimSpace (processText tr.content))) ++
        trailingOf (processText tr.content) := by
  have hc : tr.content ≠ [] := by
    intro he
    apply h3
    rw [he]
    rfl
  have hlink : hasNonEmptyLink st = false := by
    unfold hasNonEmptyLink
    rw [h2]
  have hflag : (st.bold || st.italic || st.strikethrough) = true := by
    rcases h4 with h | h | h <;> simp [h]
  simp only [formatTextRun, h1]
  rw [if_neg hc, if_neg h3]
  rw [if_neg (by simp [hlink])]
  rw [if_pos hflag, if_neg h3]

/-- Concrete bold+italic+strikethrough run. -/
def exEmphasisRun : TextRun := ⟨"text".toList, some ⟨true, true, true, none⟩⟩

/-- Witness for C4: bold, italic and strikethrough together render
`"text"` as `"~~***text***~~"`. -/
theorem c4_witness : formatTextRun (some exEmphasisRun) = "~~***text***~~".toList := by
  rw [c4_formatTextRun_emphasis exEmphasisRun ⟨true, true, true, none⟩ rfl rfl
    (by decide) (Or.inl rfl)]
  decide

/-- C9 counterexample: the claim that every character of the normalized
run content appears in the formatter output fails for a link run with
leading spaces: `"  hi\n"` with a link renders as `"[hi](http://x)\n"`,
which contains no space character although the content does. -/
theorem c9_counterexample :
    (' ' ∈ processText exLinkRun.content) ∧ ' ' ∉ formatTextRun (some exLinkRun) := by
  decide

theorem emphasisWrap_decomp (st : TextStyle) (core : GoStr) :
    ∃ x y, emphasisWrap st core = x ++ core ++ y := by
  unfold emphasisWrap
  cases hb : st.bold <;> cases hi : st.italic
  · exact ⟨[], [], by simp [hb, hi]⟩
  · exact ⟨['*'], ['*'], by simp [hb, hi]⟩
  · exact ⟨['*', '*'], ['*', '*'], by simp [hb, hi]⟩
  · exact ⟨['*', '*', '*'], ['*', '*', '*'], by simp [hb, hi]⟩

theorem strikeWrap_decomp (st : TextStyle) (core : GoStr) :
    ∃ x y, strikeWrap st core = x ++ core ++ y := by
  unfold strikeWrap
  by_cases hs : st.strikethrough = true
  · exact ⟨['~', '~'], ['~', '~'], by simp [hs]⟩
  · exact ⟨[], [], by simp [hs]⟩

/-- C9 amended: the formatter never truncates the core: the
whitespace-trimmed core of the normalized text appears contiguously in
the output, and the output ends with the trailing space/tab/newline
suffix of the normalized text.  (Leading whitespace may be dropped for
link runs, and whitespace characters outside space/tab/newline adjacent
to the core may be dropped for emphasis runs, so not every input
character appears.) -/
theorem c9_formatTextRun_core_preserved (tr : TextRun) :
    (∃ l r, formatTextRun (some tr) = l ++ goTrimSpace (processText tr.content) ++ r) ∧
    (∃ l, formatTextRun (some tr) = l ++ trailingOf (processText tr.content)) := by
  by_cases hc : tr.content = []
  · have hnil : processText tr.content = [] := by rw [hc]; rfl
    have hfmt : formatTextRun (some tr) = [] := by
      simp only [formatTextRun]
      rw [if_pos hc]
    refine ⟨⟨[], [], ?_⟩, ⟨[], ?_⟩⟩
    · rw [hfmt, hnil]
      rfl
    · rw [hfmt, hnil]
      rfl
  · by_cases hw : goTrimSpace (processText tr.content) = []
    · have hfmt : formatTextRun (some tr) = processText tr.content := by
        simp only [formatTextRun]
        rw [if_neg hc, if_pos hw]
      refine ⟨⟨processText tr.content, [], ?_⟩, ⟨goTrimRightWS (processText tr.content), ?_⟩⟩
      · rw [hfmt, hw]
        simp
      · rw [hfmt, goTrimRightWS_append_trailingOf]
    · rcases htr : tr.textStyle with _ | st
      · have hfmt : formatTextRun (some tr) = processText tr.content := by
          simp only [formatTextRun, htr]
          rw [if_neg hc, if_neg hw]
        constructor
        · obtain ⟨l, r, hlr⟩ := trim_decomp (processText tr.content)
          exact ⟨l, r, by rw [hfmt, ← hlr]⟩
        · exact ⟨goTrimRightWS (processText tr.content),
            by rw [hfmt, goTrimRightWS_append_trailingOf]⟩
      · by_cases hlk : (hasNonEmptyLink st = true) ∧ goTrimSpace (processText tr.content) ≠ []
        · have hfmt : formatTextRun (some tr) =
              ('[' :: goTrimSpace (processText tr.content)) ++
                (']' :: '(' :: linkUrlOf st) ++ (')' :: trailingOf (processText tr.content)) := by
            simp only [formatTextRun, htr]
            rw [if_neg hc, if_neg hw, if_pos hlk]
          constructor
          · exact ⟨['['], (']' :: '(' :: linkUrlOf st) ++ (')' :: trailingOf (processText tr.content)),
              by rw [hfmt]; simp⟩
          · exact ⟨('[' :: goTrimSpace (processText tr.content)) ++
              (']' :: '(' :: linkUrlOf st) ++ [')'],
              by rw [hfmt]; simp⟩
        · by_cases hflag : (st.bold || st.italic || st.strikethrough) = true
          · have hfmt : formatTextRun (some tr) =
                leadingOf (processText tr.content) ++
                  strikeWrap st (emphasisWrap st (goTrimSpace (processText tr.content))) ++
                  trailingOf (processText tr.content) := by
              simp only [formatTextRun, htr]
              rw [if_neg hc, if_neg hw, if_neg hlk, if_pos hflag, if_neg hw]
            obtain ⟨x, y, hxy⟩ := emphasisWrap_decomp st (goTrimSpace (processText tr.content))
            obtain ⟨u, v, huv⟩ := strikeWrap_decomp st (emphasisWrap st (goTrimSpace (processText tr.content)))
            constructor
            · refine ⟨leadingOf (processText tr.content) ++ u ++ x,
                y ++ v ++ trailingOf (processText tr.content), ?_⟩
              rw [hfmt, huv, hxy]
              simp
            · exact ⟨leadingOf (processText tr.content) ++
                strikeWrap st (emphasisWrap st (goTrimSpace (processText tr.content))),
                by simp [hfmt]⟩
          · have hfmt : formatTextRun (some tr) = processText tr.content := by
              simp only [formatTextRun, htr]
              rw [if_neg hc, if_neg hw, if_neg hlk, if_neg hflag]
            constructor
            · obtain ⟨l, r, hlr⟩ := trim_decomp (processText tr.content)
              exact ⟨l, r, by rw [hfmt, ← hlr]⟩
            · exact ⟨goTrimRightWS (processText tr.content),
                by rw [hfmt, goTrimRightWS_append_trailingOf]⟩

/-! ## Claims C1, C5, C7, C8 (paragraph renderer) -/

/-- C7: a paragraph whose concatenated formatted content trims to empty
emits no decoration: it appends one newline unless the buffer already
ends with two consecutive newlines, in which case it appends nothing. -/
theorem c7_processParagraph_blank (sb : GoStr) (para : Paragraph)
    (lists : ListCatalog) (off : Nat)
    (h : goTrimSpace (paraContent para.elements) = []) :
    processParagraph sb (some para) lists off =
      if goHasSuffix sb ['\n', '\n'] then sb else sb ++ ['\n'] := by
  simp only [processParagraph]
  rw [if_pos h]

/-- Paragraph holding one whitespace-only run. -/
def exBlankPara : Paragraph := ⟨none, none, [⟨some ⟨[' '], none⟩⟩]⟩

/-- Witness for C7 at a concrete whitespace paragraph and a buffer that
does not end in a blank line. -/
theorem c7_witness : processParagraph ['x'] (some exBlankPara) none 0 = ['x', '\n'] := by
  rw [c7_processParagraph_blank ['x'] exBlankPara none 0 (by decide)]
  decide

/-- C1: a paragraph classified as a heading of level `L` with
non-whitespace content is rendered with a prefix of exactly
`min (L + off) 6` hash characters and one space before the content
(after an optional single blank-line separator). -/
theorem c1_processParagraph_heading (sb : GoStr) (para : Paragraph)
    (lists : ListCatalog) (off L : Nat)
    (hL : headingLevelOfPara para = L) (hpos : 0 < L)
    (hne : goTrimSpace (paraContent para.elements) ≠ []) :
    processParagraph sb (some para) lists off =
      (if 0 < sb.length ∧ ¬ goHasSuffix sb ['\n', '\n'] then sb ++ ['\n'] else sb) ++
        (List.replicate (min (L + off) 6) '#' ++ [' ']) ++
        goTrimSuffixNewline (paraContent para.elements) ++ ['\n', '\n'] := by
  simp only [processParagraph, hL]
  rw [if_neg hne, if_pos hpos, if_pos (by simp)]

/-- Concrete HEADING_2 paragraph with content `"Hello\n"`. -/
def exHeadingPara : Paragraph :=
  ⟨some ⟨['H', 'E', 'A', 'D', 'I', 'N', 'G', '_', '2']⟩, none,
    [⟨some ⟨"Hello\n".toList, none⟩⟩]⟩

/-- Witness for C1: HEADING_2 at offset 3 renders with
`min (2+3) 6 = 5` hashes after a separating newline. -/
theorem c1_witness :
    processParagraph ['x'] (some exHeadingPara) none 3 = "x\n##### Hello\n\n".toList := by
  rw [c1_processParagraph_heading ['x'] exHeadingPara none 3 2 (by decide) (by decide)
    (by decide)]
  decide

theorem bulletPrefixOf_ne_nil (lists : ListCatalog) (b : Bullet) :
    bulletPrefixOf lists b ≠ [] := by
  simp only [bulletPrefixOf]
  intro h
  rcases ite_eq_iff.mp h with ⟨_, h2⟩ | ⟨_, h2⟩ <;> simp at h2

/-- The nesting-level normalization and ordered-glyph test of
`bulletPrefixOf` coincide with the claim-side description. -/
theorem bulletPrefixOf_eq (lists : ListCatalog) (b : Bullet) (N : Nat)
    (hN : b.nestingLevel = (N : Int)) :
    bulletPrefixOf lists b =
      List.replicate (2 * N) ' ' ++
        (if resolvesToOrderedGlyph lists b.listId N then ['1', '.', ' '] else ['-', ' ']) := by
  have hnl : (if 0 < b.nestingLevel then b.nestingLevel.toNat else 0) = N := by
    by_cases h : 0 < b.nestingLevel
    · rw [if_pos h, hN]
      omega
    · rw [if_neg h]
      omega
  simp only [bulletPrefixOf, resolvesToOrderedGlyph, hnl]
  rw [apply_ite (fun x : GoStr => List.replicate (2 * N) ' ' ++ x)]

/-- C5: a bullet paragraph at nesting level `N ≥ 0` (with no heading and
well-formed content) renders with exactly `2 * N` leading spaces followed
by `"1. "` exactly when the list id resolves in the catalog to a
DECIMAL/ALPHA/ROMAN glyph at level `N`, and by `"- "` otherwise. -/
theorem c5_processParagraph_bullet (sb : GoStr) (para : Paragraph) (b : Bullet)
    (lists : ListCatalog) (off N : Nat)
    (hb : para.bullet = some b) (hN : b.nestingLevel = (N : Int))
    (hh : headingLevelOfPara para = 0)
    (h1 : goTrimSpace (paraContent para.elements) ≠ [])
    (h2 : goTrimSpace (paraContent para.elements) ≠ ['-']) :
    processParagraph sb (some para) lists off =
      sb ++ (List.replicate (2 * N) ' ' ++
          (if resolvesToOrderedGlyph lists b.listId N then ['1', '.', ' '] else ['-', ' '])) ++
        goTrimSuffixNewline (paraContent para.elements) ++ ['\n'] := by
  have htc := goTrimSpace_goTrimSuffixNewline (paraContent para.elements)
  simp only [processParagraph, hb, hh]
  rw [if_neg h1, if_neg (by omega : ¬ (0 : Nat) < 0)]
  rw [if_neg (fun h => h rfl : ¬ ([] : GoStr) ≠ [])]
  rw [if_pos (bulletPrefixOf_ne_nil lists b)]
  rw [if_neg (by rw [htc]; exact not_or.mpr ⟨h1, h2⟩)]
  rw [bulletPrefixOf_eq lists b N hN]

/-- Concrete bullet paragraph at nesting level 1 with list id `"l1"`. -/
def exBulletPara : Paragraph :=
  ⟨none, some ⟨['l', '1'], 1⟩, [⟨some ⟨"item".toList, none⟩⟩]⟩

/-- Catalog mapping `"l1"` to glyph types DECIMAL (level 0) and ALPHA
(level 1). -/
def exCatalog : ListCatalog :=
  some [(['l', '1'],
    ⟨some ⟨[⟨['D', 'E', 'C', 'I', 'M', 'A', 'L']⟩, ⟨['A', 'L', 'P', 'H', 'A']⟩]⟩⟩)]

/-- Witness for C5: nesting level 1 with an ALPHA glyph gives two leading
spaces and an ordered `"1. "` marker. -/
theorem c5_witness :
    processParagraph [] (some exBulletPara) exCatalog 0 = "  1. item\n".toList := by
  rw [c5_processParagraph_bullet [] exBulletPara ⟨['l', '1'], 1⟩ exCatalog 0 1
    (by decide) (by decide) (by decide) (by decide) (by decide)]
  decide

/-- Bullet paragraph whose only run is a single space. -/
def exBulletBlank : Paragraph := ⟨none, some ⟨[], 0⟩, [⟨some ⟨[' '], none⟩⟩]⟩

/-- C8 counterexample: a bullet paragraph (no heading) whose content after
stripping one trailing newline and trimming is empty does not leave the
buffer unchanged: the whitespace-paragraph rule fires first and appends
one newline. -/
theorem c8_counterexample :
    exBulletBlank.bullet.isSome = true ∧
    headingLevelOfPara exBulletBlank = 0 ∧
    goTrimSpace (goTrimSuffixNewline (paraContent exBulletBlank.elements)) = [] ∧
    processParagraph [] (some exBulletBlank) none 0 = ['\n'] ∧
    processParagraph [] (some exBulletBlank) none 0 ≠ [] := by
  decide

/-- C8 amended: a bullet paragraph with no heading prefix whose content,
after stripping one trailing newline and trimming whitespace, is exactly
the single character `"-"` is discarded: the buffer is left completely
unchanged.  (When that content is empty instead, the paragraph falls under
the whitespace-paragraph rule, which may append one newline.) -/
theorem c8_processParagraph_dash_bullet (sb : GoStr) (para : Paragraph) (b : Bullet)
    (lists : ListCatalog) (off : Nat)
    (hb : para.bullet = some b) (hh : headingLevelOfPara para = 0)
    (hdash : goTrimSpace (goTrimSuffixNewline (paraContent para.elements)) = ['-']) :
    processParagraph sb (some para) lists off = sb := by
  have htc := goTrimSpace_goTrimSuffixNewline (paraContent para.elements)
  rw [htc] at hdash
  simp only [processParagraph, hb, hh]
  rw [if_neg (by rw [hdash]; simp), if_neg (by omega : ¬ (0 : Nat) < 0)]
  rw [if_neg (fun h => h rfl : ¬ ([] : GoStr) ≠ [])]
  rw [if_pos (bulletPrefixOf_ne_nil lists b)]
  rw [if_pos (Or.inr (htc.trans hdash))]

/-- Bullet paragraph whose content is `"-\n"`. -/
def exDashPara : Paragraph := ⟨none, some ⟨[], 0⟩, [⟨some ⟨['-', '\n'], none⟩⟩]⟩

/-- Witness for the amended C8: a bullet item reading `"-\n"` is dropped. -/
theorem c8_witness : processParagraph ['x'] (some exDashPara) none 0 = ['x'] := by
  rw [c8_processParagraph_dash_bullet ['x'] exDashPara ⟨[], 0⟩ none 0 (by decide)
    (by decide) (by decide)]


/-! ## Claim C10 (append-only rendering) and claim C6 (tables) -/

theorem app_exists0 (sb : GoStr) : ∃ t, sb = sb ++ t := ⟨[], by simp⟩

theorem app_exists (sb x : GoStr) : ∃ t, sb ++ x = sb ++ t := ⟨x, rfl⟩

theorem app_exists2 (sb x y : GoStr) : ∃ t, sb ++ x ++ y = sb ++ t :=
  ⟨x ++ y, by simp⟩

theorem app_exists3 (sb x y z : GoStr) : ∃ t, sb ++ x ++ y ++ z = sb ++ t :=
  ⟨x ++ y ++ z, by simp⟩

theorem app_exists4 (sb x y z w : GoStr) : ∃ t, sb ++ x ++ y ++ z ++ w = sb ++ t :=
  ⟨x ++ y ++ z ++ w, by simp⟩

theorem append_chain {a x y : GoStr} (h1 : ∃ u, x = a ++ u) (h2 : ∃ v, y = x ++ v) :
    ∃ t, y = a ++ t := by
  obtain ⟨u, hu⟩ := h1
  obtain ⟨v, hv⟩ := h2
  exact ⟨u ++ v, by rw [hv, hu, List.append_assoc]⟩

theorem ite_app (c : Prop) [Decidable c] (x y : GoStr) :
    ∃ u, (if c then x ++ y else x) = x ++ u := by
  by_cases h : c
  · exact ⟨y, by rw [if_pos h]⟩
  · exact ⟨[], by rw [if_neg h]; simp⟩

theorem ite_app2 (c1 c2 : Prop) [Decidable c1] [Decidable c2] (x y : GoStr) :
    ∃ u, (if c1 then (if c2 then x ++ y else x) else x) = x ++ u := by
  by_cases h1 : c1
  · rw [if_pos h1]
    exact ite_app c2 x y
  · exact ⟨[], by rw [if_neg h1]; simp⟩

theorem processParagraph_app (sb : GoStr) (para : Option Paragraph)
    (lists : ListCatalog) (off : Nat) :
    ∃ t, processParagraph sb para lists off = sb ++ t := by
  rcases para with _ | para
  · exact app_exists0 sb
  · simp only [processParagraph]
    repeat' split
    all_goals first
      | exact app_exists0 sb
      | exact app_exists sb _
      | exact app_exists2 sb _ _
      | exact app_exists3 sb _ _ _
      | exact app_exists4 sb _ _ _ _

mutual
theorem extractMarkdownContent_app (sb : GoStr) (elements : List StructuralElement)
    (lists : ListCatalog) (off : Nat) :
    ∃ t, extractMarkdownContent sb elements lists off = sb ++ t := by
  match elements with
  | [] => exact ⟨[], by rw [extractMarkdownContent.eq_def]; simp⟩
  | StructuralElement.mk p t brk :: rest =>
    rw [extractMarkdownContent.eq_def]
    simp only
    rcases p with _ | para <;> rcases t with _ | tb <;> simp only
    · refine append_chain ?_ (extractMarkdownContent_app _ rest lists off)
      exact ite_app2 _ _ _ _
    · refine append_chain ?_ (extractMarkdownContent_app _ rest lists off)
      exact append_chain (processTable_app sb (some tb) lists off) (ite_app2 _ _ _ _)
    · refine append_chain ?_ (extractMarkdownContent_app _ rest lists off)
      exact append_chain (processParagraph_app sb (some para) lists off) (ite_app2 _ _ _ _)
    · refine append_chain ?_ (extractMarkdownContent_app _ rest lists off)
      refine append_chain ?_ (ite_app2 _ _ _ _)
      exact append_chain (processParagraph_app sb (some para) lists off)
        (processTable_app _ (some tb) lists off)
termination_by sizeOf elements

theorem processTable_app (sb : GoStr) (table : Option Table) (lists : ListCatalog)
    (off : Nat) :
    ∃ t, processTable sb table lists off = sb ++ t := by
  match table with
  | none => exact ⟨[], by rw [processTable.eq_def]; simp⟩
  | some (Table.mk rows) =>
    rw [processTable.eq_def]
    simp only
    split
    · exact app_exists0 sb
    · obtain ⟨u, hu⟩ := processTableRows_app (sb ++ ['\n']) rows 0 lists off
      refine ⟨'\n' :: (u ++ ['\n']), ?_⟩
      rw [hu]
      simp

theorem processTableRows_app (sb : GoStr) (rows : List TableRow) (rowIdx : Nat)
    (lists : ListCatalog) (off : Nat) :
    ∃ t, processTableRows sb rows rowIdx lists off = sb ++ t := by
  match rows with
  | [] => exact ⟨[], by rw [processTableRows.eq_def]; simp⟩
  | TableRow.mk cells :: rest =>
    rw [processTableRows.eq_def]
    simp only
    split
    · refine append_chain ?_ (processTableRows_app _ rest (rowIdx + 1) lists off)
      refine append_chain
        (append_chain (app_exists sb ['|']) (processTableCells_app _ cells lists off)) ?_
      exact app_exists4 _ _ _ _ _
    · refine append_chain ?_ (processTableRows_app _ rest (rowIdx + 1) lists off)
      refine append_chain
        (append_chain (app_exists sb ['|']) (processTableCells_app _ cells lists off)) ?_
      exact app_exists _ ['\n']
termination_by sizeOf rows

theorem processTableCells_app (sb : GoStr) (cells : List TableCell)
    (lists : ListCatalog) (off : Nat) :
    ∃ t, processTableCells sb cells lists off = sb ++ t := by
  match cells with
  | [] => exact ⟨[], by rw [processTableCells.eq_def]; simp⟩
  | TableCell.mk content :: rest =>
    rw [processTableCells.eq_def]
    simp only
    refine append_chain ?_ (processTableCells_app _ rest lists off)
    exact app_exists3 sb _ _ _
termination_by sizeOf cells
end

/-- C10: every rendering operation only appends to the output buffer: the
walker, the paragraph renderer and the table renderer (including section
break emission inside the walker) all return the starting buffer followed
by some suffix, for every input and starting buffer. -/
theorem c10_append_only :
    (∀ (sb : GoStr) (elements : List StructuralElement) (lists : ListCatalog) (off : Nat),
      ∃ t, extractMarkdownContent sb elements lists off = sb ++ t) ∧
    (∀ (sb : GoStr) (para : Option Paragraph) (lists : ListCatalog) (off : Nat),
      ∃ t, processParagraph sb para lists off = sb ++ t) ∧
    (∀ (sb : GoStr) (table : Option Table) (lists : ListCatalog) (off : Nat),
      ∃ t, processTable sb table lists off = sb ++ t) :=
  ⟨fun sb e l o => extractMarkdownContent_app sb e l o,
   fun sb p l o => processParagraph_app sb p l o,
   fun sb t l o => processTable_app sb t l o⟩

/-- A one-paragraph table cell whose only run is the single character `c`. -/
def cellOf (c : Char) : TableCell :=
  TableCell.mk [StructuralElement.mk (some ⟨none, none, [⟨some ⟨[c], none⟩⟩]⟩) none false]

/-- The two-row table `[["A", "B"], ["C", "D"]]`. -/
def exTable : Table :=
  Table.mk [TableRow.mk [cellOf 'A', cellOf 'B'], TableRow.mk [cellOf 'C', cellOf 'D']]

/-- C6: a table with zero rows appends nothing, and the table
`[["A", "B"], ["C", "D"]]` appends a leading newline, one pipe line per
row, a separator with the first row column count after the first row, and
a trailing newline: exactly `"\n| A | B |\n| --- | --- |\n| C | D |\n\n"`. -/
theorem c6_processTable :
    (∀ (sb : GoStr) (lists : ListCatalog) (off : Nat),
      processTable sb (some (Table.mk [])) lists off = sb) ∧
    (∀ sb : GoStr, processTable sb (some exTable) none 0 =
      sb ++ "\n| A | B |\n| --- | --- |\n| C | D |\n\n".toList) := by
  constructor
  · intro sb lists off
    rw [processTable.eq_def]
    simp
  · intro sb
    simp [exTable, cellOf, processTable, processTableRows, processTableCells,
      extractMarkdownContent, processParagraph, paraContent, formatTextRun, processText,
      goReplaceChar, goTrimSpace, isGoSpace, headerSepCells, goTrimSuffixNewline,
      headingLevelOfPara, goHasSuffix, bulletPrefixOf]


end DocsMd
